import Mathlib

/-!
Verification of `hierconfig` (src/hierconfig/config.py): a shallow embedding
of the schema flattener (`ConfigBase._add_arg_from_cls` and helpers), the
value unflattener (`ConfigBase._convert_namespace_to_dict`), the nested
instance builder (`ConfigBase.from_dict`), dict serialization
(`ConfigBase.to_dict`, i.e. `dataclasses.asdict`) and `config_field`.

Python values are modelled by the inductive type `Val`; Python dicts by
insertion-ordered association lists (`aset` updates an existing key in place
and appends a fresh key, exactly like CPython dicts).  Fallible code returns
`Except String`; a Python exception of any class (KeyError, TypeError,
AssertionError, ...) is an `Except.error`.
-/

namespace Hierconfig

/-- A Python runtime value, as far as hierconfig manipulates them:
`vnone` is Python's `None`; `nat`/`str`/`boolv` are opaque scalars;
`listv` a list; `dict` an insertion-ordered dict with string keys;
`inst` a dataclass instance (class name plus ordered field map). -/
inductive Val where
  | vnone : Val
  | nat (n : Nat) : Val
  | str (s : String) : Val
  | boolv (b : Bool) : Val
  | listv (xs : List Val) : Val
  | dict (m : List (String × Val)) : Val
  | inst (cname : String) (fvs : List (String × Val)) : Val

/-- Dict lookup (`d[k]` / `k in d`): first binding for the key. -/
def alookup : List (String × Val) → String → Option Val
  | [], _ => none
  | (k', v) :: r, k => if k' = k then some v else alookup r k

/-- Dict assignment `d[k] = v`: update an existing key in place, or append a
new binding at the end (CPython dict insertion-order semantics). -/
def aset : List (String × Val) → String → Val → List (String × Val)
  | [], k, v => [(k, v)]
  | (k', v') :: r, k, v => if k' = k then (k', v) :: r else (k', v') :: aset r k v

/-- `isDictV v` holds when the Python value is a dict. -/
def isDictV : Val → Bool
  | .dict _ => true
  | _ => false

/-- `isInstV v` holds when the Python value is a dataclass instance. -/
def isInstV : Val → Bool
  | .inst _ _ => true
  | _ => false

/-- The runtime leaf type annotation of a dataclass field, as inspected by
`ConfigBase._add_arg_by_type` via `typing.get_origin` / `typing.get_args`.
`boolTy` is `bool`; `plainTy n` any other class (origin `None`) with
`__name__ = n`; `tupleTy args` has origin `tuple` (with `args` the names of
the declared element types, in order); `listTy args` origin `list`;
`genericTy n` any other generic origin. -/
inductive LeafTy where
  | boolTy : LeafTy
  | plainTy (n : String) : LeafTy
  | tupleTy (args : List String) : LeafTy
  | listTy (args : List String) : LeafTy
  | genericTy (n : String) : LeafTy
deriving DecidableEq, Repr

/-- A dataclass field's `default` slot: `missing` is `dataclasses.MISSING`,
`val v` an explicit default (which may be `Val.vnone`, i.e. Python `None`). -/
inductive Dflt where
  | missing : Dflt
  | val (v : Val) : Dflt

/-- Field metadata as read by `_get_metadata`: the `help` and `choices`
entries (anything else is never read by the code under verification). -/
structure MetaD where
  help : Option String
  choices : Option (List Val)

mutual
/-- A config schema: a `ConfigBase` dataclass, with class name and declared
fields in declaration order. -/
inductive Schema where
  | mk (cname : String) (fields : List FieldD)

/-- One declared dataclass field: name, type annotation, `default`,
`default_factory` (modelled by the value the factory returns, or `none` when
the factory is `MISSING`) and metadata. -/
inductive FieldD where
  | mk (name : String) (ftype : FType) (dflt : Dflt) (factory : Option Val) (meta : MetaD)

/-- A field type annotation: either a nested `ConfigBase` subclass
(`inspect.isclass(t) and issubclass(t, ConfigBase)`) or a leaf type. -/
inductive FType where
  | nested (s : Schema)
  | leafT (t : LeafTy)
end

/-- Class name of a schema. -/
def Schema.cname : Schema → String
  | .mk c _ => c

/-- Declared fields of a schema, in declaration order. -/
def Schema.fields : Schema → List FieldD
  | .mk _ fs => fs

/-- `field.name`. -/
def FieldD.name : FieldD → String
  | .mk n _ _ _ _ => n

/-- `field.type`. -/
def FieldD.ftype : FieldD → FType
  | .mk _ t _ _ _ => t

/-- `field.default`. -/
def FieldD.dflt : FieldD → Dflt
  | .mk _ _ d _ _ => d

/-- `field.default_factory` (the value it would return, if set). -/
def FieldD.factory : FieldD → Option Val
  | .mk _ _ _ f _ => f

/-- `field.metadata`. -/
def FieldD.meta : FieldD → MetaD
  | .mk _ _ _ _ m => m

/-- `field.name.replace('_', '-')`. -/
def hyphenate (s : String) : String :=
  String.mk (s.toList.map (fun c => if c = '_' then '-' else c))

/-- `ConfigBase._get_flag` (config.py lines 108-117).  `seen` is the mutable
set of already-used option names, modelled as the list of its elements; the
result pairs the returned flag string with the updated set.  The two
`assert` statements become `Except.error`. -/
def getFlag (pfx : List String) (fname : String) (seen : List String) :
    Except String (String × List String) :=
  let name := hyphenate fname
  if name ∈ seen then
    if pfx = [] then
      .error "AssertionError: len(prefixes) > 0"
    else
      let qname := String.intercalate "." (pfx ++ [name])
      if qname ∈ seen then
        .error "AssertionError: name not in seen (DuplicateFlagError)"
      else
        .ok ("--" ++ qname, qname :: seen)
  else
    .ok ("--" ++ name, name :: seen)

/-- `ConfigBase._get_dest` (config.py lines 119-124). -/
def getDest (pfx : List String) (fname : String) : String :=
  if pfx = [] then fname else String.intercalate "." (pfx ++ [fname])

/-- `ConfigBase._get_default` (config.py lines 126-134): the explicit
default, else the factory's value, else Python `None`. -/
def getDefault (f : FieldD) : Val :=
  match f.dflt with
  | .val v => v
  | .missing =>
    match f.factory with
    | some v => v
    | none => Val.vnone

/-- Name of a leaf type (`field.type.__name__`), used in help text. -/
def LeafTy.tyName : LeafTy → String
  | .boolTy => "bool"
  | .plainTy n => n
  | .tupleTy _ => "tuple"
  | .listTy _ => "list"
  | .genericTy n => n

/-- `ConfigBase._get_help` (config.py lines 136-141). -/
def getHelp (f : FieldD) (t : LeafTy) : String :=
  (f.meta.help.getD " ") ++ " (type=" ++ t.tyName ++ ")"

/-- Arity/semantics of an emitted argument: `one` is argparse's default
(exactly one token), `fixedN n` is `nargs=n`, `oneOrMore` is `nargs='+'`,
and `boolAction` is `action=argparse.BooleanOptionalAction`. -/
inductive Nargs where
  | one : Nargs
  | fixedN (n : Nat) : Nargs
  | oneOrMore : Nargs
  | boolAction : Nargs
deriving DecidableEq, Repr

/-- What one `parser.add_argument` call registers: the option strings (two
of them for `BooleanOptionalAction`), `dest`, `default`, arity, help text
and choices. -/
structure ArgSpec where
  optionStrings : List String
  dest : String
  default : Val
  nargs : Nargs
  help : String
  choices : Option (List Val)

/-- `ConfigBase._add_arg` (config.py lines 143-157): derive flag, dest,
default, help and choices and register one single-valued-or-nargs option. -/
def addArg (f : FieldD) (t : LeafTy) (pfx : List String) (seen : List String)
    (nargs : Nargs) : Except String (ArgSpec × List String) := do
  let (flag, seen') ← getFlag pfx f.name seen
  .ok ({ optionStrings := [flag]
         dest := getDest pfx f.name
         default := getDefault f
         nargs := nargs
         help := getHelp f t
         choices := f.meta.choices }, seen')

/-- `ConfigBase._add_argument_default` (config.py lines 159-161). -/
def addArgumentDefault (f : FieldD) (t : LeafTy) (pfx : List String)
    (seen : List String) : Except String (ArgSpec × List String) :=
  addArg f t pfx seen .one

/-- `ConfigBase._add_argument_tuple` (config.py lines 163-168):
`args = typing.get_args(field.type); assert len(set(args)) == 1;
nargs = len(args)`. -/
def addArgumentTuple (f : FieldD) (args : List String) (pfx : List String)
    (seen : List String) : Except String (ArgSpec × List String) :=
  if args.dedup.length = 1 then
    addArg f (.tupleTy args) pfx seen (.fixedN args.length)
  else
    .error "AssertionError: len(set(args)) == 1 (SchemaError)"

/-- `ConfigBase._add_argument_list` (config.py lines 170-174):
`assert len(args) == 1` then `nargs='+'`. -/
def addArgumentList (f : FieldD) (args : List String) (pfx : List String)
    (seen : List String) : Except String (ArgSpec × List String) :=
  if args.length = 1 then
    addArg f (.listTy args) pfx seen .oneOrMore
  else
    .error "AssertionError: len(args) == 1"

/-- `ConfigBase._add_argument_bool` (config.py lines 176-198): asserts the
field type is `bool` and `field.default is not None`, then registers a
`BooleanOptionalAction` pair of switches (the `--x` flag plus its `--no-x`
negation) with no choices. -/
def addArgumentBool (f : FieldD) (pfx : List String) (seen : List String) :
    Except String (ArgSpec × List String) :=
  match f.ftype with
  | .leafT .boolTy =>
    match f.dflt with
    | .val .vnone => .error "AssertionError: field.default is not None"
    | _ => do
      let (flag, seen') ← getFlag pfx f.name seen
      .ok ({ optionStrings := [flag, "--no-" ++ flag.drop 2]
             dest := getDest pfx f.name
             default := getDefault f
             nargs := .boolAction
             help := getHelp f .boolTy
             choices := none }, seen')
  | _ => .error "AssertionError: field.type is bool"

/-- `ConfigBase._add_arg_by_type` (config.py lines 91-106): dispatch on
`typing.get_origin(field.type)` / `field.type is bool`. -/
def addArgByType (f : FieldD) (t : LeafTy) (pfx : List String)
    (seen : List String) : Except String (ArgSpec × List String) :=
  match t with
  | .boolTy => addArgumentBool f pfx seen
  | .plainTy n => addArgumentDefault f (.plainTy n) pfx seen
  | .tupleTy args => addArgumentTuple f args pfx seen
  | .listTy args => addArgumentList f args pfx seen
  | .genericTy n => addArgumentDefault f (.genericTy n) pfx seen

mutual
/-- `ConfigBase._add_arg_from_cls` (config.py lines 78-85): walk the fields
in declaration order; recurse into nested config classes with the field
name appended to the prefix list, emit one argument per leaf field.
Returns all emitted argument specs in emission order plus the final seen
set. -/
def addArgFromCls (s : Schema) (pfx : List String) (seen : List String) :
    Except String (List ArgSpec × List String) :=
  match s with
  | .mk _ fs => addArgFields fs pfx seen

/-- The `for field in dataclasses.fields(config_cls)` loop body of
`_add_arg_from_cls`. -/
def addArgFields (fs : List FieldD) (pfx : List String) (seen : List String) :
    Except String (List ArgSpec × List String) :=
  match fs with
  | [] => .ok ([], seen)
  | .mk nm (.nested s') _ _ _ :: rest => do
    let (specs₁, seen₁) ← addArgFromCls s' (pfx ++ [nm]) seen
    let (specs₂, seen₂) ← addArgFields rest pfx seen₁
    .ok (specs₁ ++ specs₂, seen₂)
  | .mk nm (.leafT t) df fc mt :: rest => do
    let (spec, seen₁) ← addArgByType (.mk nm (.leafT t) df fc mt) t pfx seen
    let (specs₂, seen₂) ← addArgFields rest pfx seen₁
    .ok (spec :: specs₂, seen₂)
end

/-- `cls(**config)`: a dataclass constructor call with keyword arguments.
Fails (TypeError) when `config` holds a key that is not a declared field,
or lacks the key of a field that has neither `default` nor
`default_factory`; a field absent from `config` takes its default (or
factory) value.  The built instance lists its fields in declaration
order.  `constructStep` resolves one field: the map entry if present,
else `default`, else the factory value, else the TypeError for a missing
required argument. -/
def constructStep (m : List (String × Val)) (f : FieldD) :
    Except String (String × Val) :=
  match alookup m f.name with
  | some v => Except.ok (f.name, v)
  | none =>
    match f.dflt with
    | .val v => Except.ok (f.name, v)
    | .missing =>
      match f.factory with
      | some v => Except.ok (f.name, v)
      | none =>
        Except.error "TypeError: missing required argument (MissingFieldError)"

/-- `cls(**config)` continued: resolve every declared field from the map or
its default via `constructStep`, and reject unexpected keys. -/
def construct (cname : String) (fs : List FieldD) (m : List (String × Val)) :
    Except String Val :=
  if m.all (fun e => fs.any (fun f => f.name == e.1)) then do
    let fvs ← fs.mapM (constructStep m)
    Except.ok (Val.inst cname fvs)
  else
    Except.error "TypeError: unexpected keyword argument"

mutual
/-- `ConfigBase.from_dict` (config.py lines 203-208): replace, in place,
each nested-config entry of `config` by the recursively built sub-instance,
then call `cls(**config)`.  The result pairs the built instance with the
final (mutated) contents of the caller's dict. -/
def fromDict (s : Schema) (m : List (String × Val)) :
    Except String (Val × List (String × Val)) :=
  match s with
  | .mk cname fs => do
    let m' ← processNested fs m
    let c ← construct cname fs m'
    .ok (c, m')

/-- The `for field in dataclasses.fields(cls)` loop of `from_dict`:
`config[field.name] = field.type.from_dict(config[field.name])` for every
field whose type is a config class.  A missing key raises KeyError; a
non-dict entry makes the recursive call raise. -/
def processNested (fs : List FieldD) (m : List (String × Val)) :
    Except String (List (String × Val)) :=
  match fs with
  | [] => .ok m
  | .mk nm (.nested s') _ _ _ :: rest =>
    (match alookup m nm with
     | none => .error "KeyError"
     | some (.dict sub) => do
       let (c, _) ← fromDict s' sub
       processNested rest (aset m nm c)
     | some _ => .error "TypeError: argument is not a mapping")
  | .mk _ (.leafT _) _ _ _ :: rest => processNested rest m
end

mutual
/-- `dataclasses._asdict_inner`: recursively turn dataclass instances into
dicts, copying lists and dicts and deep-copying (here: keeping) plain
values. -/
def toDictVal : Val → Val
  | .inst _ fvs => .dict (toDictAL fvs)
  | .dict m => .dict (toDictAL m)
  | .listv xs => .listv (toDictList xs)
  | .vnone => .vnone
  | .nat n => .nat n
  | .str s => .str s
  | .boolv b => .boolv b

/-- `_asdict_inner` over the entries of a dict / the fields of an
instance. -/
def toDictAL : List (String × Val) → List (String × Val)
  | [] => []
  | (k, v) :: r => (k, toDictVal v) :: toDictAL r

/-- `_asdict_inner` over the elements of a list. -/
def toDictList : List Val → List Val
  | [] => []
  | v :: r => toDictVal v :: toDictList r
end

/-- `ConfigBase.to_dict` (config.py lines 200-201): `dataclasses.asdict`,
defined on dataclass instances only. -/
def toDict : Val → Except String Val
  | .inst _ fvs => .ok (.dict (toDictAL fvs))
  | _ => .error "TypeError: asdict() should be called on dataclass instances"

mutual
/-- A value contains no dataclass instance anywhere inside it (so `asdict`
leaves it unchanged). -/
def plainV : Val → Bool
  | .inst _ _ => false
  | .dict m => plainAL m
  | .listv xs => plainL xs
  | .vnone => true
  | .nat _ => true
  | .str _ => true
  | .boolv _ => true

/-- `plainV` over dict entries. -/
def plainAL : List (String × Val) → Bool
  | [] => true
  | (_, v) :: r => plainV v && plainAL r

/-- `plainV` over list elements. -/
def plainL : List Val → Bool
  | [] => true
  | v :: r => plainV v && plainL r
end

mutual
/-- A configuration instance is well formed for a schema when it is an
instance of the schema's class, its field map lists exactly the declared
fields in declaration order, nested-config fields hold well-formed
sub-instances, and leaf fields hold values with no dataclass instance
inside (the only values the library ever parses or loads into leaves). -/
def wfS : Schema → Val → Bool
  | .mk cn fs, .inst cn' fvs => (cn == cn') && wfFields fs fvs
  | _, _ => false

/-- `wfS` over the field lists. -/
def wfFields : List FieldD → List (String × Val) → Bool
  | [], [] => true
  | .mk nm (.nested s') _ _ _ :: rest, (k, v) :: rvs =>
    (nm == k) && wfS s' v && wfFields rest rvs
  | .mk nm (.leafT _) _ _ _ :: rest, (k, v) :: rvs =>
    (nm == k) && plainV v && wfFields rest rvs
  | _, _ => false
end

/-- A list of strings has no duplicates (executable form). -/
def nodupStr : List String → Bool
  | [] => true
  | s :: r => (!r.contains s) && nodupStr r

mutual
/-- Field names are duplicate-free at every level of the schema (guaranteed
for Python dataclasses, where a duplicate field name is a syntax-level
redefinition). -/
def nodupS : Schema → Bool
  | .mk _ fs => nodupStr (fs.map FieldD.name) && nodupFs fs

/-- `nodupS` for every nested sub-schema of a field list. -/
def nodupFs : List FieldD → Bool
  | [] => true
  | .mk _ (.nested s') _ _ _ :: rest => nodupS s' && nodupFs rest
  | .mk _ (.leafT _) _ _ _ :: rest => nodupFs rest
end

/-- What a `config_field` call returns, as far as the library reads it:
the metadata mapping handed to `dataclasses.field`. -/
structure FieldSpec where
  metadata : List (String × Val)

/-- `config_field` (config.py lines 257-265).  The `metadata: dict = {}`
default is one dict object, created when the function is defined and shared
by every call that does not pass `metadata` explicitly; `state` holds its
current contents and the first component of the result holds its contents
after the call (unchanged when an explicit `metadata` argument was
supplied, since the mutations then hit the caller's dict). -/
def configField (state : List (String × Val)) (help : Option String)
    (choices : Option (List Val))
    (metadataArg : Option (List (String × Val))) :
    List (String × Val) × FieldSpec :=
  let md0 := metadataArg.getD state
  let md1 := match help with
    | some h => aset md0 "help" (.str h)
    | none => md0
  let md2 := match choices with
    | some cs => aset md1 "choices" (.listv cs)
    | none => md1
  (if metadataArg.isSome then state else md2, { metadata := md2 })

/-- Helper for `splitDots`: accumulate the current segment (reversed). -/
def splitCharsAux : List Char → List Char → List String
  | [], acc => [String.mk acc.reverse]
  | c :: cs, acc =>
    if c = '.' then String.mk acc.reverse :: splitCharsAux cs []
    else splitCharsAux cs (c :: acc)

/-- Python's `key.split('.')`: cut the string at every dot (empty segments
included). -/
def splitDots (s : String) : List String := splitCharsAux s.toList []

/-- The body of the `for key, value in vars(namespace).items()` loop of
`ConfigBase._convert_namespace_to_dict` (config.py lines 64-76), for one
key already split into path segments: walk the nested dicts along the
leading segments (creating an empty dict at each missing intermediate
node) and assign the value at the last segment.  Walking into a non-dict
value raises (TypeError); the final assignment overwrites whatever the
last segment currently maps to. -/
def setIn : Val → List String → Val → Except String Val
  | .dict m, [n], v => .ok (.dict (aset m n v))
  | .dict m, p :: q :: ps, v =>
    (setIn (match alookup m p with | some w => w | none => .dict []) (q :: ps) v).map
      (fun sub => .dict (aset m p sub))
  | _, _, _ => .error "TypeError"

/-- `ConfigBase._convert_namespace_to_dict` (config.py lines 64-76): fold
the flat map's entries, in iteration order, into a nested dict, splitting
each key on `'.'`. -/
def convertNamespaceToDict (entries : List (String × Val)) : Except String Val :=
  entries.foldlM (fun config e => setIn config (splitDots e.1) e.2) (.dict [])

/-- Navigate a nested value along a path of dict keys. -/
def getSub : Val → List String → Option Val
  | v, [] => some v
  | v, s :: p =>
    match v with
    | .dict m =>
      (match alookup m s with
       | some w => getSub w p
       | none => none)
    | _ => none

/-- Extensional observation of a nested value at a path: `none` when the
path is absent, `some none` when a dict sits there, `some (some w)` when
the non-dict value `w` sits there.  Two nested dicts that agree under
`obs` at every path are equal in Python's extensional dict-equality
sense. -/
def obs (v : Val) (p : List String) : Option (Option Val) :=
  (getSub v p).map (fun w => if isDictV w then none else some w)

/-- Order-independent description of where unflattening disjoint entries
puts things: a leaf value at each entry's segment path, a dict at the root
and at every proper prefix of an entry's path, nothing anywhere else. -/
def specObs (l : List (List String × Val)) (p : List String) :
    Option (Option Val) :=
  match l.find? (fun e => e.1 == p) with
  | some e => some (some e.2)
  | none =>
    if p.isEmpty || l.any (fun e => p.isPrefixOf e.1 && !(p == e.1)) then
      some none
    else
      none

/-- Two segment paths are disjoint: neither is a (possibly equal) prefix
of the other. -/
def segDisj (a b : List String) : Prop := ¬ a <+: b ∧ ¬ b <+: a

/-- `convertNamespaceToDict` after splitting all keys: fold `setIn` over
pre-split entries. -/
def foldSegs (l : List (List String × Val)) : Except String Val :=
  l.foldlM (fun config e => setIn config e.1 e.2) (.dict [])

/-- Pre-split the keys of a flat map into their dot-separated segments. -/
def splitEntries (entries : List (String × Val)) : List (List String × Val) :=
  entries.map (fun (e : String × Val) => (splitDots e.1, e.2))

mutual
/-- Modelled from the spec: the Dotted Keys of the schema's leaf fields in
depth-first, pre-order, field-declaration order ("Traverses the schema
tree depth-first, pre-order, in field-declaration order", "formed by
joining all ancestor field names (in root-to-leaf order) with a separator
(`.`), omitting the root").  Stated over segment lists; the flattener is
compared against `String.intercalate "."` of these. -/
def preorderLeafPaths (s : Schema) (pfx : List String) : List (List String) :=
  match s with
  | .mk _ fs => preorderLeafPathsF fs pfx

/-- `preorderLeafPaths` over a field list. -/
def preorderLeafPathsF (fs : List FieldD) (pfx : List String) :
    List (List String) :=
  match fs with
  | [] => []
  | .mk nm (.nested s') _ _ _ :: rest =>
    preorderLeafPaths s' (pfx ++ [nm]) ++ preorderLeafPathsF rest pfx
  | .mk nm (.leafT _) _ _ _ :: rest =>
    (pfx ++ [nm]) :: preorderLeafPathsF rest pfx
end

section Lemmas

theorem alookup_aset (m : List (String × Val)) (k k' : String) (v : Val) :
    alookup (aset m k v) k' = if k = k' then some v else alookup m k' := by
  induction m with
  | nil => simp [aset, alookup]
  | cons hd tl ih =>
    obtain ⟨k₀, v₀⟩ := hd
    simp only [aset]
    by_cases h0 : k₀ = k
    · subst h0
      simp only [if_pos rfl, alookup]
      by_cases h1 : k₀ = k' <;> simp [h1]
    · simp only [if_neg h0, alookup, ih]
      by_cases h1 : k₀ = k'
      · subst h1
        have : ¬ k = k₀ := fun h => h0 h.symm
        simp [this]
      · simp [h1]

theorem alookup_aset_self (m : List (String × Val)) (k : String) (v : Val) :
    alookup (aset m k v) k = some v := by
  simp [alookup_aset]

theorem alookup_aset_ne (m : List (String × Val)) (k k' : String) (v : Val)
    (h : k ≠ k') : alookup (aset m k v) k' = alookup m k' := by
  simp [alookup_aset, h]

theorem drop_two_append (s : String) : ("--" ++ s).drop 2 = s := by
  apply String.ext
  rw [String.data_drop, String.data_append]
  rfl

theorem getFlag_fresh (pfx : List String) (fname : String)
    (seen : List String) (h : hyphenate fname ∉ seen) :
    getFlag pfx fname seen =
      .ok ("--" ++ hyphenate fname, hyphenate fname :: seen) := by
  simp [getFlag, h]

end Lemmas

/-- C2: during flattening, a leaf field whose hyphenated name is not yet in
the seen set keeps the short flag; when the hyphenated name has already
been used, the flag is re-derived as the full dotted path (the prefixes
joined with the hyphenated leaf name by `.`); and when even that qualified
name has already been used, `_get_flag` fails (the `assert`, i.e. the
DuplicateFlagError). -/
theorem c2_flag_collision (pfx : List String) (fname : String)
    (seen : List String) :
    (hyphenate fname ∉ seen →
      getFlag pfx fname seen =
        .ok ("--" ++ hyphenate fname, hyphenate fname :: seen)) ∧
    (hyphenate fname ∈ seen → pfx ≠ [] →
      String.intercalate "." (pfx ++ [hyphenate fname]) ∉ seen →
      getFlag pfx fname seen =
        .ok ("--" ++ String.intercalate "." (pfx ++ [hyphenate fname]),
             String.intercalate "." (pfx ++ [hyphenate fname]) :: seen)) ∧
    (hyphenate fname ∈ seen →
      String.intercalate "." (pfx ++ [hyphenate fname]) ∈ seen →
      ∃ e, getFlag pfx fname seen = .error e) := by
  refine ⟨fun h1 => ?_, fun h1 h2 h3 => ?_, fun h1 h2 => ?_⟩
  · exact getFlag_fresh pfx fname seen h1
  · simp [getFlag, h1, h2, h3]
  · rcases Classical.em (pfx = []) with hp | hp
    · exact ⟨"AssertionError: len(prefixes) > 0", by simp [getFlag, h1, hp]⟩
    · exact ⟨"AssertionError: name not in seen (DuplicateFlagError)",
        by simp [getFlag, h1, h2, hp]⟩

theorem c2_flag_collision_witness :
    getFlag ["model"] "learning_rate" ["learning-rate"] =
      .ok ("--model.learning-rate", ["model.learning-rate", "learning-rate"]) ∧
    (∃ e, getFlag ["model"] "lr" ["lr", "model.lr"] = .error e) :=
  ⟨(c2_flag_collision ["model"] "learning_rate" ["learning-rate"]).2.1
      (by decide) (by decide) (by decide),
   (c2_flag_collision ["model"] "lr" ["lr", "model.lr"]).2.2
      (by decide) (by decide)⟩

/-- C3 counterexample: the claim says flattening a boolean leaf fails with
SchemaError whenever the field's default is unset or None; but a boolean
field whose default is unset (`dataclasses.MISSING`, no factory) passes the
`assert field.default is not None` check and is registered successfully,
with `None` as the parser default. -/
theorem c3_bool_unset_default_accepted :
    ∃ spec seen',
      addArgumentBool (.mk "flag" (.leafT .boolTy) .missing none ⟨none, none⟩)
          [] [] = .ok (spec, seen') ∧ spec.default = Val.vnone :=
  ⟨_, _, rfl, rfl⟩

/-- C3 (amended): flattening a boolean leaf emits the mutually exclusive
`--x` / `--no-x` switch pair, and fails whenever the field's default is
explicitly `None`; an unset default is accepted (the parser default then
being `None`). -/
theorem c3_bool_switch_pair (f : FieldD) (pfx seen : List String)
    (hty : f.ftype = .leafT .boolTy) :
    (f.dflt = .val Val.vnone → ∃ e, addArgumentBool f pfx seen = .error e) ∧
    (f.dflt ≠ .val Val.vnone → hyphenate f.name ∉ seen →
      ∃ seen', addArgumentBool f pfx seen =
        .ok ({ optionStrings := ["--" ++ hyphenate f.name,
                                 "--no-" ++ hyphenate f.name]
               dest := getDest pfx f.name
               default := getDefault f
               nargs := .boolAction
               help := getHelp f .boolTy
               choices := none }, seen')) := by
  constructor
  · intro hd
    exact ⟨"AssertionError: field.default is not None",
      by rw [addArgumentBool, hty, hd]⟩
  · intro hd hseen
    have hflag : getFlag pfx f.name seen =
        .ok ("--" ++ hyphenate f.name, hyphenate f.name :: seen) :=
      getFlag_fresh pfx f.name seen hseen
    have key : addArgumentBool f pfx seen =
        .ok ({ optionStrings := ["--" ++ hyphenate f.name,
                                 "--no-" ++ ("--" ++ hyphenate f.name).drop 2]
               dest := getDest pfx f.name
               default := getDefault f
               nargs := .boolAction
               help := getHelp f .boolTy
               choices := none }, hyphenate f.name :: seen) := by
      rw [addArgumentBool, hty]
      cases hdf : f.dflt with
      | missing => rw [hflag]; exact rfl
      | val v =>
        cases v with
        | vnone => exact absurd hdf hd
        | nat n => rw [hflag]; exact rfl
        | str s => rw [hflag]; exact rfl
        | boolv b => rw [hflag]; exact rfl
        | listv xs => rw [hflag]; exact rfl
        | dict m => rw [hflag]; exact rfl
        | inst cn fvs => rw [hflag]; exact rfl
    refine ⟨hyphenate f.name :: seen, ?_⟩
    rw [key, drop_two_append]

theorem c3_bool_switch_pair_witness :
    (∃ e, addArgumentBool
        (.mk "verbose" (.leafT .boolTy) (.val Val.vnone) none ⟨none, none⟩)
        [] [] = .error e) ∧
    (∃ seen', addArgumentBool
        (.mk "use_gpu" (.leafT .boolTy) (.val (.boolv true)) none ⟨none, none⟩)
        [] [] =
      .ok ({ optionStrings := ["--use-gpu", "--no-use-gpu"]
             dest := "use_gpu"
             default := .boolv true
             nargs := .boolAction
             help := "  (type=bool)"
             choices := none }, seen')) :=
  ⟨(c3_bool_switch_pair
      (.mk "verbose" (.leafT .boolTy) (.val Val.vnone) none ⟨none, none⟩)
      [] [] rfl).1 rfl,
   (c3_bool_switch_pair
      (.mk "use_gpu" (.leafT .boolTy) (.val (.boolv true)) none ⟨none, none⟩)
      [] [] rfl).2 (by intro h; cases h) (by decide)⟩

/-- C7: for a leaf field whose type is a tuple, flattening emits a flag of
fixed arity equal to the tuple's length (whenever it succeeds), and fails
(the `assert len(set(args)) == 1`, i.e. SchemaError) whenever the declared
element types are not all identical. -/
theorem c7_tuple_fixed_arity (f : FieldD) (args : List String)
    (pfx seen : List String) :
    (∀ spec seen', addArgumentTuple f args pfx seen = .ok (spec, seen') →
      spec.nargs = .fixedN args.length) ∧
    (∀ a b, a ∈ args → b ∈ args → a ≠ b →
      ∃ e, addArgumentTuple f args pfx seen = .error e) := by
  constructor
  · intro spec seen' h
    rw [addArgumentTuple] at h
    by_cases hdl : args.dedup.length = 1
    · rw [if_pos hdl, addArg] at h
      cases hg : getFlag pfx f.name seen with
      | error e => rw [hg] at h; exact Except.noConfusion h
      | ok p =>
        rw [hg] at h
        cases h
        rfl
    · rw [if_neg hdl] at h
      exact Except.noConfusion h
  · intro a b ha hb hab
    refine ⟨"AssertionError: len(set(args)) == 1 (SchemaError)", ?_⟩
    have hdl : args.dedup.length ≠ 1 := by
      intro hlen
      obtain ⟨x, hx⟩ := List.length_eq_one.mp hlen
      have ha' : a ∈ args.dedup := List.mem_dedup.mpr ha
      have hb' : b ∈ args.dedup := List.mem_dedup.mpr hb
      rw [hx] at ha' hb'
      exact hab ((List.mem_singleton.mp ha').trans
        (List.mem_singleton.mp hb').symm)
    rw [addArgumentTuple, if_neg hdl]

theorem c7_tuple_fixed_arity_witness :
    (∃ spec seen',
      addArgumentTuple (.mk "size" (.leafT (.tupleTy ["int", "int"]))
          (.val (.listv [.nat 1, .nat 2])) none ⟨none, none⟩)
        ["int", "int"] [] [] = .ok (spec, seen') ∧
      spec.nargs = .fixedN 2) ∧
    (∃ e, addArgumentTuple (.mk "pair" (.leafT (.tupleTy ["int", "str"]))
          .missing none ⟨none, none⟩)
        ["int", "str"] [] [] = .error e) := by
  constructor
  · refine ⟨_, _, rfl, ?_⟩
    exact (c7_tuple_fixed_arity (.mk "size" (.leafT (.tupleTy ["int", "int"]))
        (.val (.listv [.nat 1, .nat 2])) none ⟨none, none⟩)
      ["int", "int"] [] []).1 _ _ rfl
  · exact (c7_tuple_fixed_arity (.mk "pair" (.leafT (.tupleTy ["int", "str"]))
        .missing none ⟨none, none⟩)
      ["int", "str"] [] []).2 "int" "str" (by decide) (by decide) (by decide)

/-- C5 counterexample: the claim says any flat map containing both `a` and
`a.b` makes the unflattener fail with AmbiguousPathError; but when the
dotted key is processed first, the later bare key silently overwrites the
nested dict and unflattening succeeds. -/
theorem c5_overwrite_no_error :
    convertNamespaceToDict [("a.b", .nat 2), ("a", .nat 1)] =
      .ok (.dict [("a", .nat 1)]) := rfl

/-- C5 (amended): the unflattener's behaviour on a flat map using the same
segment both as leaf and as intermediate map depends on iteration order:
with the bare key first (and a non-dict value), processing the dotted key
fails (a TypeError, not a dedicated AmbiguousPathError); with the dotted
key first, the bare key's value silently overwrites the nested dict and no
error is raised. -/
theorem c5_ambiguous_path_order_dependent (v₁ v₂ : Val)
    (h : isDictV v₁ = false) :
    (∃ e, convertNamespaceToDict [("a", v₁), ("a.b", v₂)] = .error e) ∧
    convertNamespaceToDict [("a.b", v₂), ("a", v₁)] =
      .ok (.dict [("a", v₁)]) := by
  constructor
  · cases v₁ with
    | dict m => exact absurd h (by simp [isDictV])
    | vnone => exact ⟨_, rfl⟩
    | nat n => exact ⟨_, rfl⟩
    | str s => exact ⟨_, rfl⟩
    | boolv b => exact ⟨_, rfl⟩
    | listv xs => exact ⟨_, rfl⟩
    | inst cn fvs => exact ⟨_, rfl⟩
  · rfl

theorem c5_ambiguous_path_order_dependent_witness :
    (∃ e, convertNamespaceToDict [("a", .str "x"), ("a.b", .nat 2)] =
      .error e) ∧
    convertNamespaceToDict [("a.b", .nat 2), ("a", .str "x")] =
      .ok (.dict [("a", .str "x")]) :=
  c5_ambiguous_path_order_dependent (.str "x") (.nat 2) rfl

/-- C10: `config_field`'s default `metadata` dict is one shared mutable
object: a first call that passes `help` (or `choices`) but no explicit
`metadata` stores into the shared dict, and a second call passing neither
that keyword nor `metadata` returns a field whose metadata still carries
the first call's entry.  `s₀` is the shared dict's prior contents ( `[]`
at module load). -/
theorem c10_shared_metadata_leak (s₀ : List (String × Val)) (h : String)
    (cs : List Val) :
    alookup (configField (configField s₀ (some h) none none).1
        none none none).2.metadata "help" = some (.str h) ∧
    alookup (configField (configField s₀ none (some cs) none).1
        none none none).2.metadata "choices" = some (.listv cs) := by
  constructor
  · show alookup (aset s₀ "help" (.str h)) "help" = some (.str h)
    exact alookup_aset_self _ _ _
  · show alookup (aset s₀ "choices" (.listv cs)) "choices" = some (.listv cs)
    exact alookup_aset_self _ _ _

theorem mapM_error_of_mem {α β : Type} (step : α → Except String β)
    (l : List α) (x : α) (hx : x ∈ l) (e : String)
    (hstep : step x = .error e) : ∃ e', l.mapM step = .error e' := by
  induction l with
  | nil => cases hx
  | cons a l ih =>
    rw [List.mapM_cons]
    rcases List.mem_cons.mp hx with rfl | hx'
    · exact ⟨e, by rw [hstep]; rfl⟩
    · cases ha : step a with
      | error e₀ => exact ⟨e₀, rfl⟩
      | ok b =>
        obtain ⟨e', he'⟩ := ih hx'
        exact ⟨e', by rw [he']; exact rfl⟩

theorem construct_error_of_missing (cname : String) (fs : List FieldD)
    (m : List (String × Val)) (f : FieldD) (hf : f ∈ fs)
    (hd : f.dflt = .missing) (hfc : f.factory = none)
    (hm : alookup m f.name = none) :
    ∃ e, construct cname fs m = .error e := by
  by_cases hall : m.all (fun e => fs.any (fun f => f.name == e.1)) = true
  · have hstep : constructStep m f =
        .error "TypeError: missing required argument (MissingFieldError)" := by
      simp only [constructStep, hm, hd, hfc]
    obtain ⟨e', he'⟩ := mapM_error_of_mem (constructStep m) fs f hf _ hstep
    refine ⟨e', ?_⟩
    rw [construct, if_pos hall, he']
    rfl
  · exact ⟨"TypeError: unexpected keyword argument",
      by rw [construct, if_neg hall]⟩

theorem processNested_alookup_none (fs : List FieldD) :
    ∀ m m' k, processNested fs m = .ok m' → alookup m k = none →
      alookup m' k = none := by
  induction fs with
  | nil =>
    intro m m' k h hk
    rw [processNested] at h
    cases h
    exact hk
  | cons f₀ rest ih =>
    intro m m' k h hk
    obtain ⟨nm, ft, df, fc, mt⟩ := f₀
    cases ft with
    | nested s' =>
      rw [processNested] at h
      split at h
      · exact Except.noConfusion h
      · next sub heq =>
        cases hfd : fromDict s' sub with
        | error e =>
          rw [hfd] at h
          exact Except.noConfusion h
        | ok p =>
          rw [hfd] at h
          replace h : processNested rest (aset m nm p.1) = .ok m' := h
          have hnm : nm ≠ k := by
            intro hh
            rw [hh, hk] at heq
            exact Option.noConfusion heq
          exact ih _ _ _ h (by rw [alookup_aset_ne _ _ _ _ hnm]; exact hk)
      · exact Except.noConfusion h
    | leafT t =>
      rw [processNested] at h
      exact ih _ _ _ h hk

/-- C4: building an instance from a nested value map that lacks the entry
of a declared field having neither `default` nor `default_factory` always
fails (the TypeError from `cls(**config)`, i.e. the MissingFieldError). -/
theorem c4_missing_required_field_fails (s : Schema) (f : FieldD)
    (m : List (String × Val)) (hf : f ∈ s.fields) (hd : f.dflt = .missing)
    (hfc : f.factory = none) (hm : alookup m f.name = none) :
    ∃ e, fromDict s m = .error e := by
  obtain ⟨cname, fs⟩ := s
  cases hpn : processNested fs m with
  | error e => exact ⟨e, by rw [fromDict, hpn]; rfl⟩
  | ok m' =>
    have hm' : alookup m' f.name = none :=
      processNested_alookup_none fs m m' f.name hpn hm
    obtain ⟨e, he⟩ := construct_error_of_missing cname fs m' f hf hd hfc hm'
    refine ⟨e, ?_⟩
    rw [fromDict, hpn]
    show (do
      let c ← construct cname fs m'
      Except.ok (c, m')) = Except.error e
    rw [he]
    exact rfl

theorem c4_missing_required_field_fails_witness :
    ∃ e, fromDict
      (.mk "Config" [.mk "names" (.leafT (.listTy ["str"])) .missing none
        ⟨none, none⟩]) [] = .error e :=
  c4_missing_required_field_fails
    (.mk "Config" [.mk "names" (.leafT (.listTy ["str"])) .missing none
      ⟨none, none⟩])
    (.mk "names" (.leafT (.listTy ["str"])) .missing none ⟨none, none⟩)
    [] (List.mem_singleton.mpr rfl) rfl rfl rfl

theorem processNested_preserves_other (fs : List FieldD) :
    ∀ m m' k, processNested fs m = .ok m' →
      (∀ f ∈ fs, FieldD.name f ≠ k) → alookup m' k = alookup m k := by
  induction fs with
  | nil =>
    intro m m' k h _
    rw [processNested] at h
    cases h
    rfl
  | cons f₀ rest ih =>
    intro m m' k h hks
    obtain ⟨nm, ft, df, fc, mt⟩ := f₀
    cases ft with
    | nested s' =>
      rw [processNested] at h
      split at h
      · exact Except.noConfusion h
      · next sub heq =>
        cases hfd : fromDict s' sub with
        | error e =>
          rw [hfd] at h
          exact Except.noConfusion h
        | ok p =>
          rw [hfd] at h
          replace h : processNested rest (aset m nm p.1) = .ok m' := h
          have hnmk : nm ≠ k := hks _ (List.mem_cons_self _ _)
          rw [ih _ _ _ h (fun f hf => hks f (List.mem_cons_of_mem _ hf)),
              alookup_aset_ne _ _ _ _ hnmk]
      · exact Except.noConfusion h
    | leafT t =>
      rw [processNested] at h
      exact ih _ _ _ h (fun f hf => hks f (List.mem_cons_of_mem _ hf))

theorem fromDict_ok_inst (s : Schema) (m : List (String × Val))
    (r : Val × List (String × Val)) (h : fromDict s m = .ok r) :
    isInstV r.1 = true := by
  obtain ⟨cname, fs⟩ := s
  rw [fromDict] at h
  cases hpn : processNested fs m with
  | error e =>
    rw [hpn] at h
    exact Except.noConfusion h
  | ok m' =>
    rw [hpn] at h
    replace h : (do
      let c ← construct cname fs m'
      Except.ok (c, m')) = .ok r := h
    rw [construct] at h
    split at h
    · cases hmm : fs.mapM (constructStep m') with
      | error e =>
        rw [hmm] at h
        exact Except.noConfusion h
      | ok fvs =>
        rw [hmm] at h
        replace h : Except.ok (Val.inst cname fvs, m') = .ok r := h
        cases h
        rfl
    · exact Except.noConfusion h

theorem processNested_nested_entry (fs : List FieldD) :
    ∀ m m', nodupStr (fs.map FieldD.name) = true →
      processNested fs m = .ok m' →
      ∀ f s', f ∈ fs → f.ftype = .nested s' →
        ∃ sub r, alookup m f.name = some (.dict sub) ∧
          fromDict s' sub = .ok r ∧ alookup m' f.name = some r.1 := by
  induction fs with
  | nil =>
    intro m m' _ _ f s' hf _
    cases hf
  | cons f₀ rest ih =>
    intro m m' hnd h f s' hf hft
    obtain ⟨nm, ft, df, fc, mt⟩ := f₀
    have hnd₂ : ((rest.map FieldD.name).contains nm = false) ∧
        nodupStr (rest.map FieldD.name) = true := by
      have : nodupStr (nm :: rest.map FieldD.name) = true := hnd
      rw [nodupStr, Bool.and_eq_true, Bool.not_eq_true'] at this
      exact this
    have hnmne : ∀ g ∈ rest, FieldD.name g ≠ nm := by
      intro g hg hgeq
      have hmem : nm ∈ rest.map FieldD.name :=
        hgeq ▸ List.mem_map_of_mem _ hg
      have hcontains : (rest.map FieldD.name).contains nm = true :=
        List.elem_eq_true_of_mem hmem
      rw [hcontains] at hnd₂
      exact Bool.noConfusion hnd₂.1
    rcases List.mem_cons.mp hf with rfl | hfr
    · have hftv : ft = .nested s' := hft
      subst hftv
      rw [processNested] at h
      split at h
      · exact Except.noConfusion h
      · next sub heq =>
        cases hfd : fromDict s' sub with
        | error e =>
          rw [hfd] at h
          exact Except.noConfusion h
        | ok p =>
          rw [hfd] at h
          replace h : processNested rest (aset m nm p.1) = .ok m' := h
          refine ⟨sub, p, heq, hfd, ?_⟩
          show alookup m' nm = some p.1
          rw [processNested_preserves_other rest _ _ _ h hnmne]
          exact alookup_aset_self _ _ _
      · exact Except.noConfusion h
    · cases ft with
      | nested s'' =>
        rw [processNested] at h
        split at h
        · exact Except.noConfusion h
        · next sub heq =>
          cases hfd : fromDict s'' sub with
          | error e =>
            rw [hfd] at h
            exact Except.noConfusion h
          | ok p =>
            rw [hfd] at h
            replace h : processNested rest (aset m nm p.1) = .ok m' := h
            obtain ⟨sub', r, h1, h2, h3⟩ := ih _ _ hnd₂.2 h f s' hfr hft
            refine ⟨sub', r, ?_, h2, h3⟩
            rw [← h1]
            exact (alookup_aset_ne _ _ _ _ (fun hh => hnmne f hfr hh.symm)).symm
        · exact Except.noConfusion h
      | leafT t =>
        rw [processNested] at h
        exact ih _ _ hnd₂.2 h f s' hfr hft

/-- C9: `from_dict` mutates its input mapping in place: when it succeeds on
a schema with a nested-config field, the final contents of the caller's
dict hold, at that field's key, the built sub-instance (a dataclass
instance, no longer the raw nested dict that was passed in). -/
theorem c9_from_dict_replaces_nested_entries (s : Schema) (f : FieldD)
    (s' : Schema) (m : List (String × Val)) (c : Val)
    (m' : List (String × Val))
    (hnd : nodupStr (s.fields.map FieldD.name) = true)
    (hf : f ∈ s.fields) (hft : f.ftype = .nested s')
    (h : fromDict s m = .ok (c, m')) :
    ∃ sub r, alookup m f.name = some (.dict sub) ∧
      fromDict s' sub = .ok r ∧ isInstV r.1 = true ∧
      alookup m' f.name = some r.1 := by
  obtain ⟨cname, fs⟩ := s
  rw [fromDict] at h
  cases hpn : processNested fs m with
  | error e =>
    rw [hpn] at h
    exact Except.noConfusion h
  | ok m'' =>
    rw [hpn] at h
    replace h : (do
      let c ← construct cname fs m''
      Except.ok (c, m'')) = Except.ok (c, m') := h
    cases hc : construct cname fs m'' with
    | error e =>
      rw [hc] at h
      exact Except.noConfusion h
    | ok c' =>
      rw [hc] at h
      replace h : Except.ok (c', m'') = Except.ok (c, m') := h
      cases h
      obtain ⟨sub, r, h1, h2, h3⟩ :=
        processNested_nested_entry fs m _ hnd hpn f s' hf hft
      exact ⟨sub, r, h1, h2, fromDict_ok_inst s' sub r h2, h3⟩

theorem c9_from_dict_replaces_nested_entries_witness :
    ∃ sub r,
      alookup [("sub", Val.dict [("x", .nat 7)]), ("y", .nat 9)] "sub" =
        some (.dict sub) ∧
      fromDict (.mk "Sub" [.mk "x" (.leafT (.plainTy "int")) .missing none
        ⟨none, none⟩]) sub = .ok r ∧
      isInstV r.1 = true ∧
      alookup [("sub", Val.inst "Sub" [("x", .nat 7)]), ("y", .nat 9)] "sub" =
        some r.1 :=
  c9_from_dict_replaces_nested_entries
    (.mk "Top" [.mk "sub" (.nested (.mk "Sub" [.mk "x" (.leafT (.plainTy "int"))
        .missing none ⟨none, none⟩])) .missing none ⟨none, none⟩,
      .mk "y" (.leafT (.plainTy "int")) .missing none ⟨none, none⟩])
    (.mk "sub" (.nested (.mk "Sub" [.mk "x" (.leafT (.plainTy "int"))
        .missing none ⟨none, none⟩])) .missing none ⟨none, none⟩)
    (.mk "Sub" [.mk "x" (.leafT (.plainTy "int")) .missing none ⟨none, none⟩])
    [("sub", Val.dict [("x", .nat 7)]), ("y", .nat 9)]
    (.inst "Top" [("sub", .inst "Sub" [("x", .nat 7)]), ("y", .nat 9)])
    [("sub", Val.inst "Sub" [("x", .nat 7)]), ("y", .nat 9)]
    rfl (List.mem_cons_self _ _) rfl rfl

theorem getDest_intercalate (pfx : List String) (nm : String) :
    getDest pfx nm = String.intercalate "." (pfx ++ [nm]) := by
  cases pfx with
  | nil => rfl
  | cons p ps => simp [getDest]

theorem addArg_dest (f : FieldD) (t : LeafTy) (pfx seen : List String)
    (n : Nargs) (spec : ArgSpec) (seen₁ : List String)
    (h : addArg f t pfx seen n = .ok (spec, seen₁)) :
    spec.dest = getDest pfx f.name := by
  rw [addArg] at h
  cases hg : getFlag pfx f.name seen with
  | error e =>
    rw [hg] at h
    exact Except.noConfusion h
  | ok p =>
    rw [hg] at h
    replace h : Except.ok
        ({ optionStrings := [p.1]
           dest := getDest pfx f.name
           default := getDefault f
           nargs := n
           help := getHelp f t
           choices := f.meta.choices }, p.2) = Except.ok (spec, seen₁) := h
    cases h
    rfl

theorem addArgumentBool_dest (f : FieldD) (pfx seen : List String)
    (spec : ArgSpec) (seen₁ : List String)
    (h : addArgumentBool f pfx seen = .ok (spec, seen₁)) :
    spec.dest = getDest pfx f.name := by
  rw [addArgumentBool] at h
  split at h
  · split at h
    · exact Except.noConfusion h
    · cases hg : getFlag pfx f.name seen with
      | error e =>
        rw [hg] at h
        exact Except.noConfusion h
      | ok p =>
        rw [hg] at h
        replace h : Except.ok
            ({ optionStrings := [p.1, "--no-" ++ p.1.drop 2]
               dest := getDest pfx f.name
               default := getDefault f
               nargs := .boolAction
               help := getHelp f .boolTy
               choices := none }, p.2) = Except.ok (spec, seen₁) := h
        cases h
        rfl
  · exact Except.noConfusion h

theorem addArgByType_dest (f : FieldD) (t : LeafTy) (pfx seen : List String)
    (spec : ArgSpec) (seen₁ : List String)
    (h : addArgByType f t pfx seen = .ok (spec, seen₁)) :
    spec.dest = getDest pfx f.name := by
  cases t with
  | boolTy => exact addArgumentBool_dest f pfx seen spec seen₁ h
  | plainTy n => exact addArg_dest f _ pfx seen _ spec seen₁ h
  | genericTy n => exact addArg_dest f _ pfx seen _ spec seen₁ h
  | tupleTy args =>
    rw [addArgByType, addArgumentTuple] at h
    split at h
    · exact addArg_dest f _ pfx seen _ spec seen₁ h
    · exact Except.noConfusion h
  | listTy args =>
    rw [addArgByType, addArgumentList] at h
    split at h
    · exact addArg_dest f _ pfx seen _ spec seen₁ h
    · exact Except.noConfusion h

theorem addArgFields_dests :
    ∀ (fs : List FieldD) (pfx seen : List String),
      ∀ specs seen', addArgFields fs pfx seen = .ok (specs, seen') →
        specs.map ArgSpec.dest =
          (preorderLeafPathsF fs pfx).map (String.intercalate ".") := by
  refine addArgFields.induct
    (fun s pfx seen => ∀ specs seen',
      addArgFromCls s pfx seen = .ok (specs, seen') →
        specs.map ArgSpec.dest =
          (preorderLeafPaths s pfx).map (String.intercalate "."))
    (fun fs pfx seen => ∀ specs seen',
      addArgFields fs pfx seen = .ok (specs, seen') →
        specs.map ArgSpec.dest =
          (preorderLeafPathsF fs pfx).map (String.intercalate "."))
    ?_ ?_ ?_ ?_
  · intro pfx seen c fields ih specs seen' h
    exact ih specs seen' h
  · intro pfx seen specs seen' h
    rw [addArgFields] at h
    cases h
    rfl
  · intro pfx seen nm s' df fc mt rest ih1 ih2 specs seen' h
    rw [addArgFields] at h
    cases h1 : addArgFromCls s' (pfx ++ [nm]) seen with
    | error e =>
      rw [h1] at h
      exact Except.noConfusion h
    | ok p₁ =>
      obtain ⟨specs₁, seen₁⟩ := p₁
      rw [h1] at h
      replace h : (do
        let p ← addArgFields rest pfx seen₁
        Except.ok (specs₁ ++ p.1, p.2)) = Except.ok (specs, seen') := h
      cases h2 : addArgFields rest pfx seen₁ with
      | error e =>
        rw [h2] at h
        exact Except.noConfusion h
      | ok p₂ =>
        rw [h2] at h
        replace h : Except.ok (specs₁ ++ p₂.1, p₂.2) =
          Except.ok (specs, seen') := h
        cases h
        rw [preorderLeafPathsF, List.map_append, List.map_append,
            ih1 specs₁ seen₁ h1, ih2 seen₁ p₂.1 p₂.2 (by rw [h2])]
  · intro pfx seen nm t df fc mt rest ih2 specs seen' h
    rw [addArgFields] at h
    cases h1 : addArgByType (.mk nm (.leafT t) df fc mt) t pfx seen with
    | error e =>
      rw [h1] at h
      exact Except.noConfusion h
    | ok p₁ =>
      obtain ⟨spec₁, seen₁⟩ := p₁
      rw [h1] at h
      replace h : (do
        let p ← addArgFields rest pfx seen₁
        Except.ok (spec₁ :: p.1, p.2)) = Except.ok (specs, seen') := h
      cases h2 : addArgFields rest pfx seen₁ with
      | error e =>
        rw [h2] at h
        exact Except.noConfusion h
      | ok p₂ =>
        rw [h2] at h
        replace h : Except.ok (spec₁ :: p₂.1, p₂.2) =
          Except.ok (specs, seen') := h
        cases h
        rw [preorderLeafPathsF, List.map_cons, List.map_cons,
            ih2 seen₁ p₂.1 p₂.2 (by rw [h2]),
            addArgByType_dest _ t pfx seen spec₁ seen₁ h1,
            getDest_intercalate]
        exact rfl

/-- C8: the schema flattener visits fields depth-first, pre-order, in
field-declaration order, emits one argument per leaf field and none for a
nested-schema field itself, and gives each emitted argument the Dotted Key
`dest` equal to its ancestor field names joined root-to-leaf with `.`
(omitting the root schema): on success, the emitted `dest` sequence equals
the pre-order list of dotted leaf paths. -/
theorem c8_flatten_preorder_dotted_keys (s : Schema) (pfx seen : List String)
    (specs : List ArgSpec) (seen' : List String)
    (h : addArgFromCls s pfx seen = .ok (specs, seen')) :
    specs.map ArgSpec.dest =
      (preorderLeafPaths s pfx).map (String.intercalate ".") := by
  obtain ⟨c, fields⟩ := s
  exact addArgFields_dests fields pfx seen specs seen' h

theorem c8_flatten_preorder_dotted_keys_witness :
    ∃ specs seen',
      addArgFromCls (.mk "Top"
        [.mk "a" (.nested (.mk "A" [.mk "x" (.leafT (.plainTy "int"))
            (.val (.nat 0)) none ⟨none, none⟩])) .missing none ⟨none, none⟩,
         .mk "b" (.nested (.mk "B" [.mk "x" (.leafT (.plainTy "int"))
            (.val (.nat 1)) none ⟨none, none⟩])) .missing none ⟨none, none⟩,
         .mk "y" (.leafT (.plainTy "int")) (.val (.nat 2)) none ⟨none, none⟩])
        [] [] = .ok (specs, seen') ∧
      specs.map ArgSpec.dest = ["a.x", "b.x", "y"] :=
  ⟨_, _, rfl,
    c8_flatten_preorder_dotted_keys (.mk "Top"
      [.mk "a" (.nested (.mk "A" [.mk "x" (.leafT (.plainTy "int"))
          (.val (.nat 0)) none ⟨none, none⟩])) .missing none ⟨none, none⟩,
       .mk "b" (.nested (.mk "B" [.mk "x" (.leafT (.plainTy "int"))
          (.val (.nat 1)) none ⟨none, none⟩])) .missing none ⟨none, none⟩,
       .mk "y" (.leafT (.plainTy "int")) (.val (.nat 2)) none ⟨none, none⟩])
      [] [] _ _ rfl⟩

theorem plain_toDict_id :
    (∀ v, plainV v = true → toDictVal v = v) ∧
    (∀ xs, plainL xs = true → toDictList xs = xs) ∧
    (∀ l, plainAL l = true → toDictAL l = l) := by
  refine toDictVal.mutual_induct
    (fun v => plainV v = true → toDictVal v = v)
    (fun xs => plainL xs = true → toDictList xs = xs)
    (fun l => plainAL l = true → toDictAL l = l)
    ?_ ?_ ?_ ?_ ?_ ?_ ?_ ?_ ?_ ?_ ?_
  · intro cname fvs _ h
    exact Bool.noConfusion h
  · intro m ih h
    rw [toDictVal, ih h]
  · intro xs ih h
    rw [toDictVal, ih h]
  · intro _
    rfl
  · intro n _
    rfl
  · intro s _
    rfl
  · intro b _
    rfl
  · intro _
    rfl
  · intro v r ih1 ih2 h
    replace h : (plainV v && plainL r) = true := h
    rw [Bool.and_eq_true] at h
    rw [toDictList, ih1 h.1, ih2 h.2]
  · intro _
    rfl
  · intro k v r ih1 ih2 h
    replace h : (plainV v && plainAL r) = true := h
    rw [Bool.and_eq_true] at h
    rw [toDictAL, ih1 h.1, ih2 h.2]

theorem mapM_congr_except {α β : Type} (f g : α → Except String β)
    (l : List α) (h : ∀ x ∈ l, f x = g x) : l.mapM f = l.mapM g := by
  induction l with
  | nil => rfl
  | cons a l ih =>
    rw [List.mapM_cons, List.mapM_cons, h a (List.mem_cons_self _ _),
        ih (fun x hx => h x (List.mem_cons_of_mem _ hx))]

theorem alookup_cons_ne (k : String) (w : Val) (m : List (String × Val))
    (k' : String) (hne : k ≠ k') : alookup ((k, w) :: m) k' = alookup m k' := by
  rw [alookup, if_neg hne]

theorem aset_cons_ne (k : String) (w : Val) (m : List (String × Val))
    (k' : String) (v : Val) (hne : k ≠ k') :
    aset ((k, w) :: m) k' v = (k, w) :: aset m k' v := by
  rw [aset, if_neg hne]

theorem constructStep_cons_ne (k : String) (w : Val)
    (m : List (String × Val)) (f : FieldD) (hne : k ≠ f.name) :
    constructStep ((k, w) :: m) f = constructStep m f := by
  rw [constructStep, constructStep, alookup_cons_ne k w m f.name hne]

theorem names_not_contains (fs : List FieldD) (k : String)
    (hc : (fs.map FieldD.name).contains k = false) :
    ∀ f ∈ fs, FieldD.name f ≠ k := by
  intro f hf hfe
  have hmem : k ∈ fs.map FieldD.name := hfe ▸ List.mem_map_of_mem _ hf
  have : (fs.map FieldD.name).contains k = true :=
    List.elem_eq_true_of_mem hmem
  rw [this] at hc
  exact Bool.noConfusion hc

theorem construct_exact :
    ∀ (fs : List FieldD) (fvs : List (String × Val)) (cname : String),
      fvs.map Prod.fst = fs.map FieldD.name →
      nodupStr (fs.map FieldD.name) = true →
      construct cname fs fvs = .ok (.inst cname fvs) := by
  have mapm :
      ∀ (fs : List FieldD) (fvs : List (String × Val)),
        fvs.map Prod.fst = fs.map FieldD.name →
        nodupStr (fs.map FieldD.name) = true →
        fs.mapM (constructStep fvs) = .ok fvs := by
    intro fs
    induction fs with
    | nil =>
      intro fvs hmap _
      cases fvs with
      | nil => rfl
      | cons e r => exact List.noConfusion hmap
    | cons f rest ih =>
      intro fvs hmap hnd
      cases fvs with
      | nil => exact List.noConfusion hmap
      | cons e rvs =>
        obtain ⟨k, v⟩ := e
        rw [List.map_cons, List.map_cons] at hmap
        have hk : k = f.name := (List.cons.injEq _ _ _ _).mp hmap |>.1
        have hrest : rvs.map Prod.fst = rest.map FieldD.name :=
          ((List.cons.injEq _ _ _ _).mp hmap).2
        have hnd₂ : ((rest.map FieldD.name).contains f.name = false) ∧
            nodupStr (rest.map FieldD.name) = true := by
          have hh : nodupStr (f.name :: rest.map FieldD.name) = true := hnd
          rw [nodupStr, Bool.and_eq_true, Bool.not_eq_true'] at hh
          exact hh
        have hne : ∀ g ∈ rest, k ≠ FieldD.name g := by
          intro g hg hgeq
          exact names_not_contains rest f.name hnd₂.1 g hg (hgeq ▸ hk)
        rw [List.mapM_cons]
        have hhead : constructStep ((k, v) :: rvs) f = .ok (f.name, v) := by
          rw [constructStep]
          have : alookup ((k, v) :: rvs) f.name = some v := by
            rw [hk, alookup, if_pos rfl]
          rw [this]
        have htail : rest.mapM (constructStep ((k, v) :: rvs)) = .ok rvs := by
          rw [mapM_congr_except _ (constructStep rvs) rest
              (fun g hg => constructStep_cons_ne k v rvs g (hne g hg)),
            ih rvs hrest hnd₂.2]
        rw [hhead, htail]
        show Except.ok ((f.name, v) :: rvs) = Except.ok ((k, v) :: rvs)
        rw [hk]
  intro fs fvs cname hmap hnd
  have hall : fvs.all (fun e => fs.any (fun f => f.name == e.1)) = true := by
    rw [List.all_eq_true]
    intro e he
    rw [List.any_eq_true]
    have : e.1 ∈ fs.map FieldD.name := hmap ▸ List.mem_map_of_mem Prod.fst he
    obtain ⟨f, hf, hfe⟩ := List.mem_map.mp this
    exact ⟨f, hf, beq_iff_eq.mpr hfe⟩
  rw [construct, if_pos hall, mapm fs fvs hmap hnd]
  rfl

theorem processNested_cons_skip (fs : List FieldD) :
    ∀ (k : String) (w : Val) (m : List (String × Val)),
      (∀ f ∈ fs, FieldD.name f ≠ k) →
      processNested fs ((k, w) :: m) =
        (processNested fs m).map (fun m' => (k, w) :: m') := by
  induction fs with
  | nil =>
    intro k w m _
    rfl
  | cons f₀ rest ih =>
    intro k w m hks
    obtain ⟨nm, ft, df, fc, mt⟩ := f₀
    have hnm : nm ≠ k := hks _ (List.mem_cons_self _ _)
    have hrest : ∀ f ∈ rest, FieldD.name f ≠ k :=
      fun f hf => hks f (List.mem_cons_of_mem _ hf)
    cases ft with
    | nested s' =>
      rw [processNested, processNested,
          alookup_cons_ne k w m nm (fun hh => hnm hh.symm)]
      cases hl : alookup m nm with
      | none => rfl
      | some v =>
        cases v with
        | dict sub =>
          show (do
            let p ← fromDict s' sub
            processNested rest (aset ((k, w) :: m) nm p.1)) =
            ((do
              let p ← fromDict s' sub
              processNested rest (aset m nm p.1)).map
                (fun m' => (k, w) :: m'))
          cases hfd : fromDict s' sub with
          | error e => rfl
          | ok p =>
            show processNested rest (aset ((k, w) :: m) nm p.1) =
              (processNested rest (aset m nm p.1)).map (fun m' => (k, w) :: m')
            rw [show aset ((k, w) :: m) nm p.1 = (k, w) :: aset m nm p.1 from
                  aset_cons_ne k w m nm p.1 (fun hh => hnm hh.symm)]
            exact ih k w (aset m nm p.1) hrest
        | vnone => rfl
        | nat n => rfl
        | str s => rfl
        | boolv b => rfl
        | listv xs => rfl
        | inst cn fvs => rfl
    | leafT t =>
      rw [processNested, processNested]
      exact ih k w m hrest

theorem processNested_cons_nested (nm : String) (s' : Schema) (df : Dflt)
    (fc : Option Val) (mt : MetaD) (rest : List FieldD)
    (m sub : List (String × Val)) (h : alookup m nm = some (.dict sub)) :
    processNested (.mk nm (.nested s') df fc mt :: rest) m =
      (fromDict s' sub) >>= fun p => processNested rest (aset m nm p.1) := by
  rw [processNested, h]

theorem fromDict_toDictAL :
    (∀ (s : Schema) (c : Val), wfS s c = true → nodupS s = true →
      ∃ fvs, c = Val.inst s.cname fvs ∧
        fromDict s (toDictAL fvs) = .ok (c, fvs)) ∧
    (∀ (fs : List FieldD) (fvs : List (String × Val)),
      wfFields fs fvs = true →
      nodupStr (fs.map FieldD.name) = true → nodupFs fs = true →
      processNested fs (toDictAL fvs) = .ok fvs ∧
        fvs.map Prod.fst = fs.map FieldD.name) := by
  refine wfS.mutual_induct
    (fun s c => wfS s c = true → nodupS s = true →
      ∃ fvs, c = Val.inst s.cname fvs ∧
        fromDict s (toDictAL fvs) = .ok (c, fvs))
    (fun fs fvs => wfFields fs fvs = true →
      nodupStr (fs.map FieldD.name) = true → nodupFs fs = true →
      processNested fs (toDictAL fvs) = .ok fvs ∧
        fvs.map Prod.fst = fs.map FieldD.name)
    ?_ ?_ ?_ ?_ ?_ ?_
  · intro cn fs cn' fvs ihm hwf hnd
    replace hwf : ((cn == cn') && wfFields fs fvs) = true := hwf
    rw [Bool.and_eq_true, beq_iff_eq] at hwf
    replace hnd : (nodupStr (fs.map FieldD.name) && nodupFs fs) = true := hnd
    rw [Bool.and_eq_true] at hnd
    obtain ⟨hpn, hmap⟩ := ihm hwf.2 hnd.1 hnd.2
    refine ⟨fvs, by rw [Schema.cname, hwf.1], ?_⟩
    rw [fromDict, hpn]
    show (do
      let c ← construct cn fs fvs
      Except.ok (c, fvs)) = Except.ok (Val.inst cn' fvs, fvs)
    rw [construct_exact fs fvs cn hmap hnd.1, hwf.1]
    exact rfl
  · intro t x hko hwf hnd
    obtain ⟨cn, fs⟩ := t
    cases x with
    | inst cn' fvs => exact (hko cn fs cn' fvs rfl rfl).elim
    | vnone => exact Bool.noConfusion hwf
    | nat n => exact Bool.noConfusion hwf
    | str s => exact Bool.noConfusion hwf
    | boolv b => exact Bool.noConfusion hwf
    | listv xs => exact Bool.noConfusion hwf
    | dict m => exact Bool.noConfusion hwf
  · intro _ _ _
    exact ⟨rfl, rfl⟩
  · intro nm s' df fc mt rest k v rvs ih1 ih2 hwf hnds hndf
    replace hwf : (((nm == k) && wfS s' v) && wfFields rest rvs) = true := hwf
    rw [Bool.and_eq_true, Bool.and_eq_true, beq_iff_eq] at hwf
    obtain ⟨⟨hk, hwfv⟩, hwfr⟩ := hwf
    replace hnds : ((!(rest.map FieldD.name).contains nm) &&
        nodupStr (rest.map FieldD.name)) = true := hnds
    rw [Bool.and_eq_true, Bool.not_eq_true'] at hnds
    replace hndf : (nodupS s' && nodupFs rest) = true := hndf
    rw [Bool.and_eq_true] at hndf
    obtain ⟨hpn, hmap⟩ := ih2 hwfr hnds.2 hndf.2
    have hrestne : ∀ f ∈ rest, FieldD.name f ≠ k :=
      fun f hf hfe => names_not_contains rest nm hnds.1 f hf (hfe.trans hk.symm)
    obtain ⟨scn, sfs⟩ := s'
    cases v with
    | inst vcn sub_fvs =>
      obtain ⟨fvs', hceq, hfd⟩ := ih1 hwfv hndf.1
      have hsub : sub_fvs = fvs' := by
        have hh : Val.inst vcn sub_fvs = Val.inst scn fvs' := hceq
        exact ((Val.inst.injEq _ _ _ _).mp hh).2
      subst hsub
      have e1 : toDictAL ((k, Val.inst vcn sub_fvs) :: rvs) =
          (k, Val.dict (toDictAL sub_fvs)) :: toDictAL rvs := by
        rw [toDictAL, toDictVal]
      have hlook : alookup ((k, Val.dict (toDictAL sub_fvs)) :: toDictAL rvs)
          nm = some (.dict (toDictAL sub_fvs)) := by
        rw [alookup, if_pos hk.symm]
      constructor
      · rw [e1, processNested_cons_nested nm (Schema.mk scn sfs) df fc mt rest
            _ _ hlook, hfd]
        show processNested rest
            (aset ((k, Val.dict (toDictAL sub_fvs)) :: toDictAL rvs) nm
              (Val.inst vcn sub_fvs)) =
          Except.ok ((k, Val.inst vcn sub_fvs) :: rvs)
        rw [show aset ((k, Val.dict (toDictAL sub_fvs)) :: toDictAL rvs) nm
              (Val.inst vcn sub_fvs) =
            (k, Val.inst vcn sub_fvs) :: toDictAL rvs from by
          rw [aset, if_pos hk.symm]]
        rw [processNested_cons_skip rest k _ (toDictAL rvs) hrestne, hpn]
        rfl
      · rw [List.map_cons, List.map_cons, hmap]
        show k :: rest.map FieldD.name = nm :: rest.map FieldD.name
        rw [hk]
    | vnone => exact Bool.noConfusion hwfv
    | nat n => exact Bool.noConfusion hwfv
    | str s => exact Bool.noConfusion hwfv
    | boolv b => exact Bool.noConfusion hwfv
    | listv xs => exact Bool.noConfusion hwfv
    | dict m => exact Bool.noConfusion hwfv
  · intro nm t df fc mt rest k v rvs ih2 hwf hnds hndf
    replace hwf : (((nm == k) && plainV v) && wfFields rest rvs) = true := hwf
    rw [Bool.and_eq_true, Bool.and_eq_true, beq_iff_eq] at hwf
    obtain ⟨⟨hk, hplain⟩, hwfr⟩ := hwf
    replace hnds : ((!(rest.map FieldD.name).contains nm) &&
        nodupStr (rest.map FieldD.name)) = true := hnds
    rw [Bool.and_eq_true, Bool.not_eq_true'] at hnds
    replace hndf : nodupFs rest = true := hndf
    obtain ⟨hpn, hmap⟩ := ih2 hwfr hnds.2 hndf
    have hrestne : ∀ f ∈ rest, FieldD.name f ≠ k :=
      fun f hf hfe => names_not_contains rest nm hnds.1 f hf (hfe.trans hk.symm)
    constructor
    · have e1 : toDictAL ((k, v) :: rvs) = (k, v) :: toDictAL rvs := by
        rw [toDictAL, plain_toDict_id.1 v hplain]
      rw [e1, processNested, processNested_cons_skip rest k v (toDictAL rvs)
          hrestne, hpn]
      rfl
    · rw [List.map_cons, List.map_cons, hmap]
      show k :: rest.map FieldD.name = nm :: rest.map FieldD.name
      rw [hk]
  · intro t x h1 h2 h3 hwf _ _
    cases t with
    | nil =>
      cases x with
      | nil => exact (h1 rfl rfl).elim
      | cons e x' => exact Bool.noConfusion hwf
    | cons f t' =>
      obtain ⟨nm, ft, df, fc, mt⟩ := f
      cases x with
      | nil =>
        cases ft with
        | nested s' => exact Bool.noConfusion hwf
        | leafT lt => exact Bool.noConfusion hwf
      | cons e x' =>
        obtain ⟨k, v⟩ := e
        cases ft with
        | nested s' => exact (h2 nm s' df fc mt t' k v x' rfl rfl).elim
        | leafT lt => exact (h3 nm lt df fc mt t' k v x' rfl rfl).elim

/-- C1: for every well-formed configuration instance `C` of a schema (an
instance of the schema's dataclass, nested sub-config fields holding
well-formed sub-instances, leaf values containing no stray dataclass
instance), `from_dict (to_dict C)` succeeds and rebuilds an instance equal
to `C` in every field, recursively through nested sub-configs. -/
theorem c1_from_dict_to_dict_round_trip (s : Schema) (c : Val)
    (hwf : wfS s c = true) (hnd : nodupS s = true) :
    ∃ l m', toDict c = .ok (.dict l) ∧ fromDict s l = .ok (c, m') := by
  obtain ⟨fvs, hceq, hfd⟩ := fromDict_toDictAL.1 s c hwf hnd
  subst hceq
  exact ⟨toDictAL fvs, fvs, rfl, hfd⟩

theorem c1_from_dict_to_dict_round_trip_witness :
    ∃ l m',
      toDict (.inst "Top" [("sub", .inst "Sub" [("x", .nat 7)]),
        ("y", .str "hi")]) = .ok (.dict l) ∧
      fromDict (.mk "Top"
        [.mk "sub" (.nested (.mk "Sub" [.mk "x" (.leafT (.plainTy "int"))
            .missing none ⟨none, none⟩])) .missing none ⟨none, none⟩,
         .mk "y" (.leafT (.plainTy "str")) .missing none ⟨none, none⟩]) l =
        .ok (.inst "Top" [("sub", .inst "Sub" [("x", .nat 7)]),
          ("y", .str "hi")], m') :=
  c1_from_dict_to_dict_round_trip
    (.mk "Top"
      [.mk "sub" (.nested (.mk "Sub" [.mk "x" (.leafT (.plainTy "int"))
          .missing none ⟨none, none⟩])) .missing none ⟨none, none⟩,
       .mk "y" (.leafT (.plainTy "str")) .missing none ⟨none, none⟩])
    (.inst "Top" [("sub", .inst "Sub" [("x", .nat 7)]), ("y", .str "hi")])
    rfl rfl

theorem obs_congr (m m' : Val) (p p' : List String)
    (h : getSub m p = getSub m' p') : obs m p = obs m' p' := by
  rw [obs, obs, h]

theorem getSub_dict_aset_self (kvs : List (String × Val)) (s : String)
    (w : Val) (p : List String) :
    getSub (Val.dict (aset kvs s w)) (s :: p) = getSub w p := by
  show (match alookup (aset kvs s w) s with
    | some u => getSub u p
    | none => none) = getSub w p
  rw [alookup_aset_self]

theorem getSub_dict_aset_ne (kvs : List (String × Val)) (s : String)
    (w : Val) (s' : String) (p : List String) (h : s ≠ s') :
    getSub (Val.dict (aset kvs s w)) (s' :: p) =
      getSub (Val.dict kvs) (s' :: p) := by
  show (match alookup (aset kvs s w) s' with
    | some u => getSub u p
    | none => none) =
    (match alookup kvs s' with
    | some u => getSub u p
    | none => none)
  rw [alookup_aset_ne _ _ _ _ h]

theorem getSub_dict_lookup (kvs : List (String × Val)) (s : String) (w : Val)
    (p : List String) (h : alookup kvs s = some w) :
    getSub (Val.dict kvs) (s :: p) = getSub w p := by
  show (match alookup kvs s with
    | some u => getSub u p
    | none => none) = getSub w p
  rw [h]

theorem getSub_dict_lookup_none (kvs : List (String × Val)) (s : String)
    (p : List String) (h : alookup kvs s = none) :
    getSub (Val.dict kvs) (s :: p) = none := by
  show (match alookup kvs s with
    | some u => getSub u p
    | none => none) = none
  rw [h]

theorem getSub_nondict (v : Val) (hv : isDictV v = false) (x : String)
    (p : List String) : getSub v (x :: p) = none := by
  cases v with
  | dict m => exact Bool.noConfusion hv
  | vnone => rfl
  | nat n => rfl
  | str s => rfl
  | boolv b => rfl
  | listv xs => rfl
  | inst cn fvs => rfl

theorem obs_nondict_nil (v : Val) (hv : isDictV v = false) :
    obs v [] = some (some v) := by
  rw [obs, show getSub v [] = some v from rfl]
  simp [hv]

theorem obs_dict_nil (m : List (String × Val)) :
    obs (Val.dict m) [] = some none := rfl

theorem isDictV_of_obs_nil (m : Val) (h : obs m [] = some none) :
    isDictV m = true := by
  cases hd : isDictV m with
  | true => rfl
  | false =>
    rw [obs_nondict_nil m hd] at h
    exact Option.noConfusion ((Option.some.injEq _ _).mp h)

theorem isDictV_of_obs_some_none (m : Val) (q : List String) (w : Val)
    (hget : getSub m q = some w) (h : obs m q = some none) :
    isDictV w = true := by
  rw [obs, hget] at h
  cases hd : isDictV w with
  | true => rfl
  | false => simp [hd] at h

theorem obs_ne_none_of_getSub (m : Val) (q : List String) (w : Val)
    (hget : getSub m q = some w) : obs m q ≠ none := by
  rw [obs, hget]
  simp

theorem setIn_obs : ∀ (segs : List String) (m v : Val), segs ≠ [] →
    isDictV v = false → isDictV m = true →
    (∀ q w, q <+: segs → q ≠ segs → getSub m q = some w → isDictV w = true) →
    ∃ m', setIn m segs v = .ok m' ∧
      ∀ p, obs m' p =
        if p = segs then some (some v)
        else if p <+: segs then some none
        else if segs <+: p then none
        else obs m p := by
  intro segs
  induction segs with
  | nil =>
    intro m v hne
    exact absurd rfl hne
  | cons s ps ih =>
    intro m v _ hv hm hpath
    cases m with
    | vnone => exact Bool.noConfusion hm
    | nat n => exact Bool.noConfusion hm
    | str s₀ => exact Bool.noConfusion hm
    | boolv b => exact Bool.noConfusion hm
    | listv xs => exact Bool.noConfusion hm
    | inst cn fvs => exact Bool.noConfusion hm
    | dict kvs =>
      cases ps with
      | nil =>
        refine ⟨Val.dict (aset kvs s v), rfl, ?_⟩
        intro p
        cases p with
        | nil =>
          rw [if_neg (show ¬([] : List String) = [s] from
                fun hh => List.noConfusion hh),
              if_pos (List.nil_prefix)]
          exact rfl
        | cons s' p' =>
          by_cases hss : s' = s
          · subst hss
            cases p' with
            | nil =>
              rw [if_pos rfl, obs, getSub_dict_aset_self kvs s' v []]
              show Option.map _ (some v) = some (some v)
              simp [hv]
            | cons x xs =>
              have h1 : ¬ (s' :: x :: xs) = [s'] := by
                intro hh
                exact List.noConfusion ((List.cons.injEq _ _ _ _).mp hh).2
              have h2 : ¬ (s' :: x :: xs <+: [s']) := by
                intro hh
                exact (List.cons_ne_nil x xs)
                  (List.prefix_nil.mp (List.cons_prefix_cons.mp hh).2)
              have h3 : ([s'] <+: s' :: x :: xs) :=
                List.cons_prefix_cons.mpr ⟨rfl, List.nil_prefix⟩
              rw [if_neg h1, if_neg h2, if_pos h3, obs,
                  getSub_dict_aset_self kvs s' v (x :: xs),
                  getSub_nondict v hv x xs]
              rfl
          · have h1 : ¬ (s' :: p') = [s] := by
              intro hh
              exact hss ((List.cons.injEq _ _ _ _).mp hh).1
            have h2 : ¬ (s' :: p' <+: [s]) :=
              fun hh => hss (List.cons_prefix_cons.mp hh).1
            have h3 : ¬ ([s] <+: s' :: p') :=
              fun hh => hss ((List.cons_prefix_cons.mp hh).1).symm
            rw [if_neg h1, if_neg h2, if_neg h3]
            exact obs_congr _ _ _ _
              (getSub_dict_aset_ne kvs s v s' p' (fun hh => hss hh.symm))
      | cons q ps' =>
        obtain ⟨cur, hcureq, hcurd, hcurB⟩ :
            ∃ cur, (match alookup kvs s with
                | some w => w
                | none => Val.dict []) = cur ∧ isDictV cur = true ∧
              ∀ x xs, getSub cur (x :: xs) =
                getSub (Val.dict kvs) (s :: x :: xs) := by
          cases halk : alookup kvs s with
          | some w =>
            refine ⟨w, rfl, ?_, ?_⟩
            · refine hpath [s] w
                (List.cons_prefix_cons.mpr ⟨rfl, List.nil_prefix⟩)
                (fun hh =>
                  List.noConfusion ((List.cons.injEq _ _ _ _).mp hh).2) ?_
              rw [getSub_dict_lookup kvs s w [] halk]
              rfl
            · intro x xs
              rw [getSub_dict_lookup kvs s w (x :: xs) halk]
          | none =>
            refine ⟨Val.dict [], rfl, rfl, ?_⟩
            intro x xs
            rw [getSub_dict_lookup_none kvs s (x :: xs) halk]
            rfl
        have hrecpath : ∀ q₀ w, q₀ <+: q :: ps' → q₀ ≠ q :: ps' →
            getSub cur q₀ = some w → isDictV w = true := by
          intro q₀ w hq₀ hq₀ne hget
          cases q₀ with
          | nil =>
            have : w = cur := by
              have hh : some cur = some w := hget
              exact ((Option.some.injEq _ _).mp hh).symm
            rw [this]
            exact hcurd
          | cons x xs =>
            rw [hcurB x xs] at hget
            refine hpath (s :: x :: xs) w
              (List.cons_prefix_cons.mpr ⟨rfl, hq₀⟩) ?_ hget
            intro hh
            exact hq₀ne ((List.cons.injEq _ _ _ _).mp hh).2
        obtain ⟨m'', hset'', hchar''⟩ :=
          ih cur v (List.cons_ne_nil q ps') hv hcurd hrecpath
        refine ⟨Val.dict (aset kvs s m''), ?_, ?_⟩
        · show (setIn (match alookup kvs s with
              | some w => w
              | none => Val.dict []) (q :: ps') v).map
            (fun sub => Val.dict (aset kvs s sub)) =
            Except.ok (Val.dict (aset kvs s m''))
          rw [hcureq, hset'']
          rfl
        · intro p
          cases p with
          | nil =>
            rw [if_neg (show ¬([] : List String) = s :: q :: ps' from
                  fun hh => List.noConfusion hh),
                if_pos (List.nil_prefix)]
            exact rfl
          | cons s' p' =>
            by_cases hss : s' = s
            · subst hss
              have lhs : obs (Val.dict (aset kvs s' m'')) (s' :: p') =
                  obs m'' p' :=
                obs_congr _ _ _ _ (getSub_dict_aset_self kvs s' m'' p')
              rw [lhs, hchar'' p']
              by_cases h1 : p' = q :: ps'
              · rw [if_pos h1, if_pos (by rw [h1])]
              · rw [if_neg h1, if_neg (show ¬ (s' :: p') = s' :: q :: ps' from
                    fun hh => h1 ((List.cons.injEq _ _ _ _).mp hh).2)]
                by_cases h2 : p' <+: q :: ps'
                · rw [if_pos h2,
                      if_pos (List.cons_prefix_cons.mpr ⟨rfl, h2⟩)]
                · rw [if_neg h2, if_neg (show ¬ (s' :: p' <+: s' :: q :: ps')
                      from fun hh => h2 (List.cons_prefix_cons.mp hh).2)]
                  by_cases h3 : q :: ps' <+: p'
                  · rw [if_pos h3,
                        if_pos (List.cons_prefix_cons.mpr ⟨rfl, h3⟩)]
                  · rw [if_neg h3, if_neg (show ¬ (s' :: q :: ps' <+: s' :: p')
                        from fun hh => h3 (List.cons_prefix_cons.mp hh).2)]
                    cases p' with
                    | nil => exact absurd List.nil_prefix h2
                    | cons x xs => exact obs_congr _ _ _ _ (hcurB x xs)
            · have h1 : ¬ (s' :: p') = s :: q :: ps' := by
                intro hh
                exact hss ((List.cons.injEq _ _ _ _).mp hh).1
              have h2 : ¬ (s' :: p' <+: s :: q :: ps') :=
                fun hh => hss (List.cons_prefix_cons.mp hh).1
              have h3 : ¬ (s :: q :: ps' <+: s' :: p') :=
                fun hh => hss ((List.cons_prefix_cons.mp hh).1).symm
              rw [if_neg h1, if_neg h2, if_neg h3]
              exact obs_congr _ _ _ _
                (getSub_dict_aset_ne kvs s m'' s' p' (fun hh => hss hh.symm))

theorem specObs_of_find_none (l : List (List String × Val)) (p : List String)
    (h : l.find? (fun x => x.1 == p) = none) :
    specObs l p =
      if p.isEmpty || l.any (fun e => p.isPrefixOf e.1 && !(p == e.1)) then
        some none
      else none := by
  rw [specObs, h]

theorem find_none_of_disj (l : List (List String × Val)) (p : List String)
    (hp : ∀ a ∈ l, a.1 ≠ p) :
    l.find? (fun x => x.1 == p) = none :=
  List.find?_eq_none.mpr (fun x hx hbeq => hp x hx (by exact beq_iff_eq.mp hbeq))

theorem specObs_nil_path (l : List (List String × Val))
    (hne : ∀ e ∈ l, e.1 ≠ []) : specObs l [] = some none := by
  rw [specObs, find_none_of_disj l [] (fun a ha => hne a ha)]
  rfl

theorem foldSegs_obs (l : List (List String × Val)) :
    List.Pairwise (fun a b => segDisj a.1 b.1) l →
    (∀ e ∈ l, e.1 ≠ []) → (∀ e ∈ l, isDictV e.2 = false) →
    ∃ m, foldSegs l = .ok m ∧ ∀ p, obs m p = specObs l p := by
  induction l using List.reverseRecOn with
  | nil =>
    intro _ _ _
    refine ⟨Val.dict [], rfl, ?_⟩
    intro p
    cases p with
    | nil => rfl
    | cons x xs => rfl
  | append_singleton l e ihl =>
    intro hdisj hne hval
    rw [List.pairwise_append] at hdisj
    have hcross : ∀ a ∈ l, segDisj a.1 e.1 :=
      fun a ha => hdisj.2.2 a ha e (List.mem_singleton.mpr rfl)
    have hne_l : ∀ x ∈ l, x.1 ≠ [] :=
      fun x hx => hne x (List.mem_append_left _ hx)
    have hval_l : ∀ x ∈ l, isDictV x.2 = false :=
      fun x hx => hval x (List.mem_append_left _ hx)
    have hne_e : e.1 ≠ [] :=
      hne e (List.mem_append_right _ (List.mem_singleton.mpr rfl))
    have hval_e : isDictV e.2 = false :=
      hval e (List.mem_append_right _ (List.mem_singleton.mpr rfl))
    obtain ⟨m, hfold, hchar⟩ := ihl hdisj.1 hne_l hval_l
    have hfold2 : foldSegs (l ++ [e]) = setIn m e.1 e.2 := by
      rw [foldSegs, List.foldlM_append]
      rw [show l.foldlM (fun config e => setIn config e.1 e.2) (Val.dict []) =
            foldSegs l from rfl, hfold]
      show [e].foldlM (fun config e => setIn config e.1 e.2) m = setIn m e.1 e.2
      simp only [List.foldlM_cons, List.foldlM_nil]
      simp
    have hmd : isDictV m = true := by
      refine isDictV_of_obs_nil m ?_
      rw [hchar [], specObs_nil_path l hne_l]
    have hipath : ∀ q w, q <+: e.1 → q ≠ e.1 → getSub m q = some w →
        isDictV w = true := by
      intro q w hq hqne hget
      have hobs := hchar q
      have hfindq : l.find? (fun x => x.1 == q) = none := by
        refine find_none_of_disj l q ?_
        intro a ha haq
        exact (hcross a ha).1 (haq ▸ hq)
      rw [specObs_of_find_none l q hfindq] at hobs
      by_cases hc : (q.isEmpty ||
          l.any (fun x => q.isPrefixOf x.1 && !(q == x.1))) = true
      · rw [if_pos hc] at hobs
        exact isDictV_of_obs_some_none m q w hget hobs
      · rw [if_neg hc] at hobs
        exact absurd hobs (obs_ne_none_of_getSub m q w hget)
    obtain ⟨m', hset, hchar'⟩ := setIn_obs e.1 m e.2 hne_e hval_e hmd hipath
    refine ⟨m', by rw [hfold2, hset], ?_⟩
    intro p
    rw [hchar' p]
    by_cases h1 : p = e.1
    · rw [if_pos h1]
      have hfl : l.find? (fun x => x.1 == p) = none := by
        refine find_none_of_disj l p ?_
        intro a ha hap
        refine (hcross a ha).1 ?_
        rw [hap, h1]
      have hfe : List.find? (fun x => x.1 == p) [e] = some e :=
        List.find?_cons_of_pos _ (by exact beq_iff_eq.mpr h1.symm)
      rw [specObs, List.find?_append, hfl, Option.none_or, hfe]
    · rw [if_neg h1]
      have hfind_e : List.find? (fun x => x.1 == p) [e] = none := by
        have hbe : (e.1 == p) = false :=
          beq_eq_false_iff_ne.mpr (fun hh => h1 hh.symm)
        simp [List.find?, hbe]
      by_cases h2 : p <+: e.1
      · rw [if_pos h2]
        have hfl : l.find? (fun x => x.1 == p) = none :=
          find_none_of_disj l p
            (fun a ha hap => (hcross a ha).1 (hap.symm ▸ h2))
        rw [specObs, List.find?_append, hfl, Option.none_or, hfind_e]
        have hany : (l ++ [e]).any
            (fun x => p.isPrefixOf x.1 && !(p == x.1)) = true := by
          rw [List.any_append]
          have hfe : (p.isPrefixOf e.1 && !(p == e.1)) = true := by
            rw [ List.isPrefixOf_iff_prefix.mpr h2, beq_eq_false_iff_ne.mpr h1]
            rfl
          have : [e].any (fun x => p.isPrefixOf x.1 && !(p == x.1)) = true := by
            rw [List.any_cons, List.any_nil, hfe]
            rfl
          rw [this, Bool.or_true]
        rw [hany, Bool.or_true, if_pos rfl]
      · rw [if_neg h2]
        by_cases h3 : e.1 <+: p
        · rw [if_pos h3]
          have hfl : l.find? (fun x => x.1 == p) = none :=
            find_none_of_disj l p
              (fun a ha hap => (hcross a ha).2 (hap ▸ h3))
          rw [specObs, List.find?_append, hfl, Option.none_or, hfind_e]
          have hpe : p.isEmpty = false := by
            cases hp : p with
            | nil =>
              rw [hp] at h3
              exact absurd (List.prefix_nil.mp h3) hne_e
            | cons x xs => rfl
          have hanyl : l.any (fun x => p.isPrefixOf x.1 && !(p == x.1)) =
              false := by
            rw [← Bool.not_eq_true, List.any_eq_true]
            rintro ⟨a, ha, hfa⟩
            rw [Bool.and_eq_true] at hfa
            exact (hcross a ha).2
              (h3.trans ( List.isPrefixOf_iff_prefix.mp hfa.1))
          have hanye : [e].any (fun x => p.isPrefixOf x.1 && !(p == x.1)) =
              false := by
            rw [List.any_cons, List.any_nil, Bool.or_false, ← Bool.not_eq_true,
                Bool.and_eq_true]
            rintro ⟨hfa, -⟩
            exact h2 ( List.isPrefixOf_iff_prefix.mp hfa)
          rw [List.any_append, hanyl, hanye, hpe]
          rfl
        · rw [if_neg h3, hchar p]
          have hfe2 : (p.isPrefixOf e.1 && !(p == e.1)) = false := by
            have : p.isPrefixOf e.1 = false := by
              rw [← Bool.not_eq_true]
              intro hh
              exact h2 ( List.isPrefixOf_iff_prefix.mp hh)
            rw [this]
            rfl
          rw [specObs, specObs, List.find?_append, hfind_e, Option.or_none,
              List.any_append, List.any_cons, List.any_nil, hfe2,
              Bool.or_false, Bool.or_false]

theorem pairwise_key_unique :
    ∀ (l : List (List String × Val)),
      List.Pairwise (fun a b => segDisj a.1 b.1) l →
      ∀ e1 ∈ l, ∀ e2 ∈ l, e1.1 = e2.1 → e1 = e2 := by
  intro l
  induction l with
  | nil =>
    intro _ e1 h1
    cases h1
  | cons a l ih =>
    intro hd e1 h1 e2 h2 hk
    rw [List.pairwise_cons] at hd
    rcases List.mem_cons.mp h1 with rfl | h1' <;>
      rcases List.mem_cons.mp h2 with rfl | h2'
    · rfl
    · exact absurd (by rw [hk] : e1.1 <+: e2.1) ((hd.1 e2 h2').1)
    · exact absurd (by rw [← hk] : e1.1 <+: e2.1) ((hd.1 e1 h1').2)
    · exact ih hd.2 e1 h1' e2 h2' hk

theorem any_perm {α : Type} (l1 l2 : List α) (h : l1.Perm l2)
    (f : α → Bool) : l1.any f = l2.any f := by
  cases ha1 : l1.any f with
  | true =>
    obtain ⟨x, hx, hfx⟩ := List.any_eq_true.mp ha1
    exact (List.any_eq_true.mpr ⟨x, h.mem_iff.mp hx, hfx⟩).symm
  | false =>
    cases ha2 : l2.any f with
    | false => rfl
    | true =>
      obtain ⟨x, hx, hfx⟩ := List.any_eq_true.mp ha2
      have hcontr := List.any_eq_true.mpr ⟨x, h.mem_iff.mpr hx, hfx⟩
      rw [ha1] at hcontr
      exact Bool.noConfusion hcontr

theorem specObs_perm (l1 l2 : List (List String × Val))
    (hperm : l1.Perm l2)
    (hd : List.Pairwise (fun a b => segDisj a.1 b.1) l1) :
    ∀ p, specObs l1 p = specObs l2 p := by
  intro p
  cases hf1 : l1.find? (fun x => x.1 == p) with
  | none =>
    have hf2 : l2.find? (fun x => x.1 == p) = none := by
      rw [List.find?_eq_none] at hf1 ⊢
      intro x hx
      exact hf1 x (hperm.mem_iff.mpr hx)
    rw [specObs, specObs, hf1, hf2,
        any_perm l1 l2 hperm (fun e => p.isPrefixOf e.1 && !(p == e.1))]
  | some ent =>
    have hent_mem : ent ∈ l1 := List.mem_of_find?_eq_some hf1
    have hent_key : ent.1 = p :=
      beq_iff_eq.mp (@List.find?_some _ (fun x => x.1 == p) ent l1 hf1)
    cases hf2 : l2.find? (fun x => x.1 == p) with
    | none =>
      rw [List.find?_eq_none] at hf2
      exact absurd (beq_iff_eq.mpr hent_key)
        (hf2 ent (hperm.mem_iff.mp hent_mem))
    | some ent2 =>
      have hent2_mem : ent2 ∈ l1 :=
        hperm.mem_iff.mpr (List.mem_of_find?_eq_some hf2)
      have hent2_key : ent2.1 = p :=
        beq_iff_eq.mp (@List.find?_some _ (fun x => x.1 == p) ent2 l2 hf2)
      have hee : ent = ent2 :=
        pairwise_key_unique l1 hd ent hent_mem ent2 hent2_mem
          (hent_key.trans hent2_key.symm)
      rw [specObs, specObs, hf1, hf2, hee]

theorem convertNamespaceToDict_eq_foldSegs (entries : List (String × Val)) :
    convertNamespaceToDict entries = foldSegs (splitEntries entries) := by
  have gen : ∀ (l : List (String × Val)) (b : Val),
      l.foldlM (fun config e => setIn config (splitDots e.1) e.2) b =
        (l.map (fun (e : String × Val) => (splitDots e.1, e.2))).foldlM
          (fun config e => setIn config e.1 e.2) b := by
    intro l
    induction l with
    | nil =>
      intro b
      rfl
    | cons a l ih =>
      intro b
      rw [List.map_cons, List.foldlM_cons, List.foldlM_cons]
      cases hs : setIn b (splitDots a.1) a.2 with
      | error e => rfl
      | ok b' =>
        show l.foldlM
            (fun config (e : String × Val) => setIn config (splitDots e.1) e.2)
            b' =
          (l.map (fun (e : String × Val) => (splitDots e.1, e.2))).foldlM
            (fun config (e : List String × Val) => setIn config e.1 e.2) b'
        exact ih b'
  rw [convertNamespaceToDict, foldSegs, splitEntries]
  exact gen entries (Val.dict [])

/-- C6: on a flat map whose dotted keys denote pairwise disjoint segment
paths (no key's path a prefix of another's) and whose values are not
themselves dicts, unflattening succeeds and the resulting nested dict does
not depend on the iteration order over the entries: any permutation of the
entries unflattens to an extensionally equal nested map (equal observation
— leaf value or sub-dict presence — at every path). -/
theorem c6_unflatten_perm_invariant (l1 l2 : List (String × Val))
    (hperm : l1.Perm l2)
    (hdisj : List.Pairwise
      (fun a b => segDisj (splitDots a.1) (splitDots b.1)) l1)
    (hne : ∀ e ∈ l1, splitDots e.1 ≠ [])
    (hval : ∀ e ∈ l1, isDictV e.2 = false) :
    ∃ m1 m2, convertNamespaceToDict l1 = .ok m1 ∧
      convertNamespaceToDict l2 = .ok m2 ∧ ∀ p, obs m1 p = obs m2 p := by
  have hperm' : (splitEntries l1).Perm (splitEntries l2) := hperm.map _
  have hdisj1 : List.Pairwise (fun a b => segDisj a.1 b.1)
      (splitEntries l1) := by
    rw [splitEntries, List.pairwise_map]
    exact hdisj
  have hdisj2 : List.Pairwise (fun a b => segDisj a.1 b.1)
      (splitEntries l2) :=
    (hperm'.pairwise_iff (fun hab => ⟨hab.2, hab.1⟩)).mp hdisj1
  have hne1 : ∀ e ∈ splitEntries l1, e.1 ≠ [] := by
    intro e he
    rw [splitEntries, List.mem_map] at he
    obtain ⟨x, hx, rfl⟩ := he
    exact hne x hx
  have hval1 : ∀ e ∈ splitEntries l1, isDictV e.2 = false := by
    intro e he
    rw [splitEntries, List.mem_map] at he
    obtain ⟨x, hx, rfl⟩ := he
    exact hval x hx
  have hne2 : ∀ e ∈ splitEntries l2, e.1 ≠ [] :=
    fun e he => hne1 e (hperm'.mem_iff.mpr he)
  have hval2 : ∀ e ∈ splitEntries l2, isDictV e.2 = false :=
    fun e he => hval1 e (hperm'.mem_iff.mpr he)
  obtain ⟨m1, h1, hc1⟩ := foldSegs_obs (splitEntries l1) hdisj1 hne1 hval1
  obtain ⟨m2, h2, hc2⟩ := foldSegs_obs (splitEntries l2) hdisj2 hne2 hval2
  refine ⟨m1, m2, by rw [convertNamespaceToDict_eq_foldSegs, h1],
    by rw [convertNamespaceToDict_eq_foldSegs, h2], ?_⟩
  intro p
  rw [hc1 p, hc2 p]
  exact specObs_perm (splitEntries l1) (splitEntries l2) hperm' hdisj1 p

theorem c6_unflatten_perm_invariant_witness :
    ∃ m1 m2,
      convertNamespaceToDict [("a.b", .nat 1), ("c", .nat 2)] = .ok m1 ∧
      convertNamespaceToDict [("c", .nat 2), ("a.b", .nat 1)] = .ok m2 ∧
      ∀ p, obs m1 p = obs m2 p :=
  c6_unflatten_perm_invariant
    [("a.b", .nat 1), ("c", .nat 2)] [("c", .nat 2), ("a.b", .nat 1)]
    (List.Perm.swap _ _ [])
    (List.Pairwise.cons
      (fun b hb => by
        rw [List.mem_singleton.mp hb]
        exact ⟨by decide, by decide⟩)
      (List.Pairwise.cons (fun b hb => by cases hb) List.Pairwise.nil))
    (by decide) (by decide)

end Hierconfig
